import Mathlib

/-!
Shallow embedding of the boolean-retrieval core in `src/model.rs`
(struct `BooleanModel` and its methods), together with theorems that
settle the specification claims about it.

Modelling conventions:
* Rust `&str` / `String` values are embedded as `List Char` (`Str` below);
  the indexed texts are ASCII after normalization, so char = byte there.
* Rust `u32` values (document ids, positions, the proximity window) stay
  far below `2 ^ 32` in everything proved here, so they are embedded as
  `Nat`; the one place where the `u32` range is observable
  (`str::parse::<u32>`) models the range check explicitly.
* `HashMap` fields are embedded as association lists in insertion order;
  lookup is `List.find?`, which agrees with the map because every key is
  inserted at most once.
* The `while` loops of the merge primitives walk the vectors by index, so
  they are embedded as index-passing recursions.  Each recursion carries a
  fuel argument that only bounds the iteration count (every iteration
  increases `i` or `j`, which the loop condition bounds by the vector
  lengths, so the fuel supplied at the call sites is never exhausted);
  this keeps the definitions structurally recursive and kernel-evaluable.
* The out-of-bounds vector access that `union` can perform is embedded by
  returning `Option`: `none` models the Rust index panic, and the query
  evaluator propagates it with `Option.bind`.
* The Porter stemmer comes from the external `rust_stemmers` crate, not
  from this repository, so every function that stems takes the stemmer as
  an explicit parameter `stem : Str → Str`; concrete evaluations
  instantiate it with `id`, which agrees with the Porter stemmer on every
  word those evaluations index or query ("cat", "sat", "mat", "ran",
  "fast", "dog", "of", "and", "once", "the", "hi", "xx" are all Porter
  fixed points).
-/

/-- Rust strings are embedded as lists of characters. -/
abbrev Str := List Char

/-- `src/model.rs` `STOPWORDS`: the fixed stopword array.  Note that the
source literally contains `"of "`, `"and "` and `"once "` with trailing
spaces. -/
def STOPWORDS : List Str :=
  [ "a", "is", "the", "of ", "all", "and ", "to", "can", "be", "as",
    "once ", "for", "at", "am", "are", "has", "have", "had", "up", "his",
    "her", "in", "on", "no", "we", "do" ].map String.toList

/-- `src/model.rs` `struct Document`: a posting, i.e. a document id with
the occurrence positions of one term in that document. -/
structure Document where
  id : Nat
  positions : List Nat
deriving DecidableEq, Repr

instance : Inhabited Document := ⟨⟨0, []⟩⟩

/-- `src/model.rs` `struct DocumentDetails`: a catalog entry. -/
structure DocumentDetails where
  name : Str
  summary : Str
  text : Str
deriving DecidableEq, Repr

/-- `src/model.rs` `struct BooleanModel` (without the stemmer field,
which is passed explicitly to the operations that use it).  The two
`HashMap`s are embedded as association lists in insertion order. -/
structure BooleanModel where
  posting_list : List (Str × List Document)
  documents : List (Nat × DocumentDetails)
deriving DecidableEq, Repr

/-- `src/model.rs` `enum Op`: the pending boolean query operator. -/
inductive Op where
  | AND
  | OR
  | NONE
deriving DecidableEq, Repr

/-- Rust `str::split(' ')`: splits at every single space, keeping empty
pieces between consecutive spaces and at the ends. -/
def splitSp : Str → List Str
  | [] => [[]]
  | c :: cs =>
    if c = ' ' then [] :: splitSp cs
    else
      match splitSp cs with
      | [] => [[c]]
      | t :: ts => (c :: t) :: ts

/-- `src/model.rs` `BooleanModel::tokenize`: split on `' '` and drop
tokens of length ≤ 1. -/
def tokenize (s : Str) : List Str :=
  (splitSp s).filter (fun t => decide (1 < t.length))

/-- The normalization step of `BooleanModel::index`:
`text.to_lowercase().replace(|c| !c.is_ascii_alphanumeric(), " ")`,
modelled character by character. -/
def normalizeText (s : Str) : Str :=
  (s.map Char.toLower).map (fun c => if c.isAlphanum then c else ' ')

/-- Rust `str::to_lowercase` as used on single query tokens. -/
def toLowerStr (s : Str) : Str := s.map Char.toLower

/-- Rust `u32::abs_diff` on the embedded `Nat` values. -/
def absDiff (a b : Nat) : Nat := if b ≤ a then a - b else b - a

/-- Rust `str::parse::<u32>`: an optional leading `+`, then at least one
ASCII digit, and the value must fit in a `u32`. -/
def parseU32 (s : Str) : Option Nat :=
  let digits := if s.head? = some '+' then s.tail else s
  if digits ≠ [] ∧ digits.all Char.isDigit then
    let v := digits.foldl (fun n c => n * 10 + (c.toNat - 48)) 0
    if v < 2 ^ 32 then some v else none
  else none

/-- Rust `Vec::binary_search_by(|doc| doc.id.cmp(&target))`.  The fuel
argument only bounds the iteration count: the interval `[lo, hi)` shrinks
every step, so fuel `v.length + 1` (supplied at the call site) is never
exhausted. -/
def binarySearchById (v : List Document) (target : Nat) :
    Nat → Nat → Nat → Except Nat Nat
  | 0, _, hi => Except.error hi
  | fuel + 1, lo, hi =>
    if lo < hi then
      let mid := (lo + hi) / 2
      match compare (v.getD mid default).id target with
      | Ordering.lt => binarySearchById v target fuel (mid + 1) hi
      | Ordering.gt => binarySearchById v target fuel lo mid
      | Ordering.eq => Except.ok mid
    else Except.error lo

/-- Association-list lookup, modelling `HashMap::get` (keys are inserted
at most once, so the first match is the only match). -/
def assocFind (pl : List (Str × List Document)) (t : Str) :
    Option (List Document) :=
  (pl.find? (fun e => decide (e.1 = t))).map (·.2)

/-- Replacing the value stored at an existing key, modelling the
`get_mut` updates of `BooleanModel::insert`. -/
def assocUpdate (pl : List (Str × List Document)) (t : Str)
    (v : List Document) : List (Str × List Document) :=
  pl.map (fun e => if e.1 = t then (e.1, v) else e)

/-- `src/model.rs` `BooleanModel::insert`: if the term is present,
binary-search its posting list for the document id; on a hit append the
new positions to that posting, on a miss push the document at the end;
if the term is absent, bind it to the one-document list. -/
def storeInsert (pl : List (Str × List Document)) (t : Str)
    (doc : Document) : List (Str × List Document) :=
  match assocFind pl t with
  | some v =>
    match binarySearchById v doc.id (v.length + 1) 0 v.length with
    | Except.ok idx =>
      let old := v.getD idx default
      assocUpdate pl t
        (v.set idx { old with positions := old.positions ++ doc.positions })
    | Except.error _ => assocUpdate pl t (v ++ [doc])
  | none => pl ++ [(t, [doc])]

/-- `src/model.rs` `BooleanModel::get_docs`: look the stemmed term up in
the posting map. -/
def get_docs (m : BooleanModel) (stem : Str → Str) (term : Str) :
    Option (List Document) :=
  assocFind m.posting_list (stem term)

/-- The per-token lookup both query evaluators perform:
`get_docs(token.to_lowercase().as_str()).unwrap_or(vec![])`. -/
def lookupTerm (m : BooleanModel) (stem : Str → Str) (tok : Str) :
    List Document :=
  (get_docs m stem (toLowerStr tok)).getD []

/-- The main merge loop of `BooleanModel::intersect`.  All vector
accesses are guarded by the loop condition, so the loop is total; fuel
`a.length + b.length + 1` is never exhausted. -/
def intersectLoop (a b : List Document) :
    Nat → Nat → Nat → List Document → List Document
  | 0, _, _, ans => ans
  | fuel + 1, i, j, ans =>
    if i < a.length ∧ j < b.length then
      let x := a.getD i default
      let y := b.getD j default
      if x.id = y.id then intersectLoop a b fuel (i + 1) (j + 1) (ans ++ [y])
      else if x.id < y.id then intersectLoop a b fuel (i + 1) j ans
      else intersectLoop a b fuel i (j + 1) ans
    else ans

/-- `src/model.rs` `BooleanModel::intersect`. -/
def intersect (a b : List Document) : List Document :=
  intersectLoop a b (a.length + b.length + 1) 0 0 []

/-- The first `while` loop of `BooleanModel::union` (the two-pointer
merge); returns the final indices together with the accumulator. -/
def unionMain (a b : List Document) :
    Nat → Nat → Nat → List Document → Nat × Nat × List Document
  | 0, i, j, ans => (i, j, ans)
  | fuel + 1, i, j, ans =>
    if i < a.length ∧ j < b.length then
      let x := a.getD i default
      let y := b.getD j default
      if x.id = y.id then unionMain a b fuel (i + 1) (j + 1) (ans ++ [y])
      else if x.id < y.id then unionMain a b fuel (i + 1) j (ans ++ [x])
      else unionMain a b fuel i (j + 1) (ans ++ [y])
    else (i, j, ans)

/-- The second `while` loop of `BooleanModel::union`, draining `a`. -/
def unionTail1 (a : List Document) :
    Nat → Nat → List Document → List Document
  | 0, _, ans => ans
  | fuel + 1, i, ans =>
    if i < a.length then unionTail1 a fuel (i + 1) (ans ++ [a.getD i default])
    else ans

/-- The third `while` loop of `BooleanModel::union`.  The source pushes
`a[j]` (not `b[j]`) while `j` ranges over `b`'s indices; when `j` is not
a valid index of `a` this is an out-of-bounds access, modelled by
`none`. -/
def unionTail2 (a : List Document) (bLen : Nat) :
    Nat → Nat → List Document → Option (List Document)
  | 0, _, ans => some ans
  | fuel + 1, j, ans =>
    if j < bLen then
      match a.get? j with
      | some d => unionTail2 a bLen fuel (j + 1) (ans ++ [d])
      | none => none
    else some ans

/-- `src/model.rs` `BooleanModel::union`: `none` models the index panic
the third loop can perform. -/
def union (a b : List Document) : Option (List Document) :=
  let r := unionMain a b (a.length + b.length + 1) 0 0 []
  let ans := unionTail1 a (a.length + 1) r.1 r.2.2
  unionTail2 a b.length (b.length + 1) r.2.1 ans

/-- The inner `for pp2 in &b[j].positions` loop of
`BooleanModel::positional_intersect`: sets the flag when a position pair
is within the window, breaks early once `pp2 > pp1` fails the window. -/
def innerScan (pp1 : Nat) (k : Nat) : List Nat → Bool → Bool
  | [], ok => ok
  | pp2 :: rest, ok =>
    if absDiff pp1 pp2 ≤ k then innerScan pp1 k rest true
    else if pp1 < pp2 then ok
    else innerScan pp1 k rest ok

/-- The outer `for pp1 in &a[i].positions` loop of
`BooleanModel::positional_intersect`: pushes (returns `true`) only at
the start of the iteration after the flag was set. -/
def outerScan (k : Nat) (bp : List Nat) : List Nat → Bool → Bool
  | [], _ => false
  | pp1 :: rest, ok =>
    if ok then true
    else outerScan k bp rest (innerScan pp1 k bp ok)

/-- The main merge loop of `BooleanModel::positional_intersect`. -/
def posLoop (a b : List Document) (k : Nat) :
    Nat → Nat → Nat → List Document → List Document
  | 0, _, _, ans => ans
  | fuel + 1, i, j, ans =>
    if i < a.length ∧ j < b.length then
      let x := a.getD i default
      let y := b.getD j default
      if x.id = y.id then
        posLoop a b k fuel (i + 1) (j + 1)
          (if outerScan k y.positions x.positions false then ans ++ [y] else ans)
      else if x.id < y.id then posLoop a b k fuel (i + 1) j ans
      else posLoop a b k fuel i (j + 1) ans
    else ans

/-- `src/model.rs` `BooleanModel::positional_intersect`. -/
def positional_intersect (a b : List Document) (k : Nat) : List Document :=
  posLoop a b k (a.length + b.length + 1) 0 0 []

/-- One step of the fold inside `BooleanModel::query_boolean`: the state
is the running document list together with the pending operator held in
the captured mutable `op`.  `none` propagates the panic that `union` can
raise.  Note that the source's trailing `op = Op::NONE;` statement is
only reached in the `Op::NONE` arm, because the `Op::AND` and `Op::OR`
arms return early. -/
def qbStep (m : BooleanModel) (stem : Str → Str) :
    List Document × Op → Str → Option (List Document × Op)
  | (ans, op), tok =>
    if tok = "AND".toList then some (ans, Op.AND)
    else if tok = "OR".toList then some (ans, Op.OR)
    else
      let docs := lookupTerm m stem tok
      match op with
      | Op.AND => some (intersect ans docs, Op.AND)
      | Op.OR => (union ans docs).map (fun r => (r, Op.OR))
      | Op.NONE => some (if ans.isEmpty then docs else ans, Op.NONE)

/-- `src/model.rs` `BooleanModel::query_boolean`. -/
def query_boolean (m : BooleanModel) (stem : Str → Str) (q : Str) :
    Option (List Document) :=
  ((tokenize q).foldlM (qbStep m stem) ([], Op.NONE)).map (·.1)

/-- Rust `str::starts_with("/")` on a token. -/
def startsSlash (t : Str) : Bool := t.head? = some '/'

/-- The first loop of `BooleanModel::query_positional`: collect the
posting list of every term token and parse every `/`-prefixed token into
the window `k` (an unparsable remainder resets `k` to 1). -/
def qpScan (m : BooleanModel) (stem : Str → Str) :
    List Str → List (List Document) → Nat → List (List Document) × Nat
  | [], dl, k => (dl, k)
  | t :: rest, dl, k =>
    if startsSlash t then qpScan m stem rest dl ((parseU32 t.tail).getD 1)
    else qpScan m stem rest (dl ++ [lookupTerm m stem t]) k

/-- The second (enumerated) fold of `BooleanModel::query_positional`:
the first posting list seeds the answer, every later one is combined
with `positional_intersect`. -/
def qpFold (k : Nat) : List (List Document) → Nat → List Document → List Document
  | [], _, ans => ans
  | cur :: rest, i, ans =>
    qpFold k rest (i + 1) (if i = 0 then cur else positional_intersect ans cur k)

/-- `src/model.rs` `BooleanModel::query_positional`. -/
def query_positional (m : BooleanModel) (stem : Str → Str) (q : Str) :
    List Document :=
  let r := qpScan m stem (tokenize q) [] 1
  qpFold r.2 r.1 0 []

/-- `src/model.rs` `BooleanModel::get_doc`. -/
def get_doc (m : BooleanModel) (id : Nat) : Option DocumentDetails :=
  (m.documents.find? (fun e => decide (e.1 = id))).map (·.2)

/-- Rust `Path::file_name().unwrap().to_str().unwrap()` for a path whose
final component is a nonempty file name: everything after the last
`'/'`. -/
def fileName (p : Str) : Str :=
  (p.reverse.takeWhile (fun c => decide (c ≠ '/'))).reverse

/-- Rust `str::get(a..b)` on an ASCII string (every index is a char
boundary, so the slice exists exactly when `b` is within the length). -/
def strGet (s : Str) (a b : Nat) : Option Str :=
  if a ≤ b ∧ b ≤ s.length then some ((s.drop a).take (b - a)) else none

/-- The enumerated `for_each` of `BooleanModel::index` that inserts one
posting per surviving token, with `j` the position inside the filtered
token stream. -/
def insertTokens (stem : Str → Str) (doc_id : Nat) :
    List Str → Nat → List (Str × List Document) → List (Str × List Document)
  | [], _, pl => pl
  | tok :: rest, j, pl =>
    insertTokens stem doc_id rest (j + 1)
      (storeInsert pl (stem tok) ⟨doc_id, [j]⟩)

/-- The per-file body of `BooleanModel::index` for a file that was read
successfully: normalizeText, tokenize, drop stopwords, stem-and-insert each
surviving token, then add the catalog entry. -/
def indexFile (stem : Str → Str) (doc_id : Nat) (p : Str) (text : Str)
    (m : BooleanModel) : BooleanModel :=
  let filtered := normalizeText text
  let toks := (tokenize filtered).filter (fun t => !STOPWORDS.contains t)
  { posting_list := insertTokens stem doc_id toks 0 m.posting_list,
    documents := m.documents ++
      [(doc_id, ⟨fileName p, (strGet filtered 0 50).getD [], text⟩)] }

/-- The enumerated file loop of `BooleanModel::index`: the file at
(0-based) position `i` gets document id `i + 1`; a file whose read
failed (`none` contents) is skipped but still consumes its id slot. -/
def indexFrom (stem : Str → Str) :
    Nat → List (Str × Option Str) → BooleanModel → BooleanModel
  | _, [], m => m
  | i, (p, c) :: rest, m =>
    indexFrom stem (i + 1) rest
      (match c with
       | none => m
       | some text => indexFile stem (i + 1) p text m)

/-- `src/model.rs` `BooleanModel::index` on a fresh model, applied to
the listed files paired with the result of reading each one (`none`
models a read failure). -/
def indexFiles (stem : Str → Str) (files : List (Str × Option Str)) :
    BooleanModel :=
  indexFrom stem 0 files ⟨[], []⟩

/-- Character comparison: Rust compares strings byte by byte, embedded
as comparison of the character codes. -/
def charCmp (a b : Char) : Ordering := compare a.toNat b.toNat

/-- Rust `str` / `Path` lexicographic comparison for paths inside one
directory, embedded on the character lists. -/
def lexCmp : Str → Str → Ordering
  | [], [] => Ordering.eq
  | [], _ :: _ => Ordering.lt
  | _ :: _, [] => Ordering.gt
  | a :: as_, b :: bs =>
    match charCmp a b with
    | Ordering.eq => lexCmp as_ bs
    | o => o

/-- The comparator of `BooleanModel::list_dir_sorted`:
`a.to_str().unwrap().len().cmp(&b.to_str().unwrap().len())` and, on
equal lengths, `a.cmp(&b)`. -/
def pathCmp (a b : Str) : Ordering :=
  match compare a.length b.length with
  | Ordering.eq => lexCmp a b
  | o => o

/-- `src/model.rs` `BooleanModel::list_dir_sorted` after the directory
has been read: a stable sort of the entries by `pathCmp`.  Rust's
`sort_by` is stable and sorts into an order where no element is
`Ordering::Greater` than its successor, which is exactly
`List.mergeSort` with `le a b := pathCmp a b ≠ .gt`. -/
def list_dir_sorted (entries : List Str) : List Str :=
  entries.mergeSort (fun a b => pathCmp a b ≠ Ordering.gt)

/-- The spec's two-file example directory (§8): `a.txt` = "cat sat mat",
`b.txt` = "cat ran fast", read successfully. -/
def exampleFiles : List (Str × Option Str) :=
  [("a.txt".toList, some ("cat sat mat".toList)),
   ("b.txt".toList, some ("cat ran fast".toList))]

/-- The index built from the spec's example directory, with the stemmer
instantiated as the identity (the Porter stemmer fixes every word that
occurs in the example). -/
def exampleModel : BooleanModel := indexFiles id exampleFiles

/-- The summary rule as claim C5 states it, for comparison with the
source-derived catalog construction: the first 50 characters of the
normalized text, or the whole normalized text when it is shorter. -/
def claimSummary (norm : Str) : Str :=
  if norm.length < 50 then norm else norm.take 50

/-- For C6, the fold step as the claim describes it: identical to
`qbStep` except that the pending operator is reset to `NONE` after every
consumed search term.  (This definition follows the claim's words, for
comparison with the source-derived `qbStep`.) -/
def claimQbStep (m : BooleanModel) (stem : Str → Str) :
    List Document × Op → Str → Option (List Document × Op)
  | (ans, op), tok =>
    if tok = "AND".toList then some (ans, Op.AND)
    else if tok = "OR".toList then some (ans, Op.OR)
    else
      let docs := lookupTerm m stem tok
      match op with
      | Op.AND => some (intersect ans docs, Op.NONE)
      | Op.OR => (union ans docs).map (fun r => (r, Op.NONE))
      | Op.NONE => some (if ans.isEmpty then docs else ans, Op.NONE)

/-- The boolean evaluator as claim C6 describes it (pending operator
reset after every term), for comparison with `query_boolean`. -/
def claimQueryBoolean (m : BooleanModel) (stem : Str → Str) (q : Str) :
    Option (List Document) :=
  ((tokenize q).foldlM (claimQbStep m stem) ([], Op.NONE)).map (·.1)

/-- For C10: the proximity window as determined by the last `/`-prefixed
token of the query (default 1), following the claim's words. -/
def claimWindow (toks : List Str) : Nat :=
  ((toks.filter startsSlash).getLast?).elim 1 (fun t => (parseU32 t.tail).getD 1)

/-- For C10: the positional evaluation as the claim describes it — the
single window `claimWindow` is applied to every positional intersection,
over the term tokens in query order. -/
def claimEval (m : BooleanModel) (stem : Str → Str) (toks : List Str) :
    List Document :=
  match (toks.filter (fun t => !startsSlash t)).map (lookupTerm m stem) with
  | [] => []
  | h :: rest =>
    rest.foldl (fun ans cur => positional_intersect ans cur (claimWindow toks)) h

/-- For C9: the ordering the claim prescribes on file names — name
length ascending, then lexicographic name ascending. -/
def claimNameLe (a b : Str) : Prop :=
  a.length < b.length ∨ (a.length = b.length ∧ lexCmp a b ≠ Ordering.gt)

/-- Proof helper: the catalog entries that `indexFrom` appends for a file
list, starting at 0-based file position `i` (so document ids from
`i + 1`); files whose read failed contribute nothing. -/
def catalogOf : Nat → List (Str × Option Str) → List (Nat × DocumentDetails)
  | _, [] => []
  | i, (p, c) :: rest =>
    match c with
    | none => catalogOf (i + 1) rest
    | some text =>
      (i + 1, ⟨fileName p, (strGet (normalizeText text) 0 50).getD [], text⟩) ::
        catalogOf (i + 1) rest

/-- Proof helper: the value of the mutable window variable `k` after the
first loop of `query_positional` processes the token list, starting from
`k`. -/
def windowAfter (k : Nat) : List Str → Nat
  | [] => k
  | t :: rest =>
    windowAfter (if startsSlash t then (parseU32 t.tail).getD 1 else k) rest

/-- C1: refuted by the code (code bug).  On the spec's own example index
("cat" has positions `[0]` in document 1, "sat" has `[1]`, and
`|0 - 1| ≤ 1`), `positional_intersect` drops the shared document and
`query_positional("cat sat /1")` returns the empty list instead of
document 1: the accepting push happens only at the start of the outer
iteration after the flag was set, so a match found at the last (here the
only) position of the left list is never pushed. -/
theorem c1_positional_window_match_dropped :
    lookupTerm exampleModel id ("cat".toList) = [⟨1, [0]⟩, ⟨2, [0]⟩] ∧
    lookupTerm exampleModel id ("sat".toList) = [⟨1, [1]⟩] ∧
    absDiff 0 1 ≤ 1 ∧
    positional_intersect [⟨1, [0]⟩, ⟨2, [0]⟩] [⟨1, [1]⟩] 1 = [] ∧
    query_positional exampleModel id ("cat sat /1".toList) = [] := by decide

/-- C2: refuted by the code (code bug) on the union half.  The third
loop of `union` drains `b` but pushes `a[j]`: on `[doc 1]` and `[doc 2]`
the result is `[doc 1, doc 1]` (duplicated, and document 2 is missing),
and on `[]` and `[doc 1]` the access `a[0]` is out of bounds (`none`
models the Rust index panic).  The intersect half behaves as claimed on
the same shapes. -/
theorem c2_union_drains_wrong_vector :
    union [⟨1, [0]⟩] [⟨2, [0]⟩] = some [⟨1, [0]⟩, ⟨1, [0]⟩] ∧
    union [] [⟨1, [0]⟩] = none ∧
    intersect [⟨1, [0]⟩, ⟨2, [5]⟩] [⟨2, [7]⟩, ⟨3, [1]⟩] = [⟨2, [7]⟩] := by decide

/-- C3: refuted by the code (code bug).  `query_boolean("xx OR cat")` on
the example index reaches `union([], postings of "cat")`, whose third
loop indexes `a[0]` on the empty vector: the evaluator panics (`none`)
instead of degrading to a result. -/
theorem c3_query_boolean_or_panics :
    query_boolean exampleModel id ("xx OR cat".toList) = none := by decide

/-- C4: refuted by the code (code bug).  The source's `STOPWORDS` array
contains `"of "`, `"and "` and `"once "` with trailing spaces; tokens
never contain spaces, so the words "of", "and" and "once" survive the
stopword filter and appear as Posting Store keys (here with the stemmer
instantiated as the identity, which agrees with the Porter stemmer on
these words). -/
theorem c4_trailing_space_stopwords_indexed :
    (indexFiles id
        [("f.txt".toList, some ("of and once the cat".toList))]).posting_list.map
      Prod.fst = ["of", "and", "once", "cat"].map String.toList ∧
    "of ".toList ∈ STOPWORDS ∧ "of".toList ∉ STOPWORDS := by decide

/-- C5 counterexample: for the file text "hi" the normalized text is
"hi" (length 2 < 50), so the claim says the summary is the whole text
"hi"; the code stores the empty string, because `get(0..50)` on a string
shorter than 50 bytes is `None` and `unwrap_or_default` yields `""`. -/
theorem c5_short_summary_counterexample :
    (get_doc (indexFiles id [("dir/a.txt".toList, some ("hi".toList))]) 1).map
      DocumentDetails.summary = some [] ∧
    claimSummary (normalizeText ("hi".toList)) = "hi".toList ∧
    ([] : Str) ≠ "hi".toList := by decide

/-- C6 counterexample: on the example index the query
"cat AND mat fast" shows that the pending operator is not reset: the
code intersects "fast" as well (AND was never cleared) and returns no
document, while the fold the claim describes (operator cleared after
"mat") leaves the running set `[doc 1]` untouched. -/
theorem c6_operator_reset_counterexample :
    query_boolean exampleModel id ("cat AND mat fast".toList) = some [] ∧
    claimQueryBoolean exampleModel id ("cat AND mat fast".toList) =
      some [⟨1, [2]⟩] ∧
    some ([] : List Document) ≠ some [(⟨1, [2]⟩ : Document)] := by decide

/-- C6 (amended): the pending operator persists.  A consumed search term
combined via AND leaves the pending operator AND, one combined via OR
leaves it OR; the operator is (trivially) reset only in the no-pending
case.  Hence a later term not preceded by a fresh operator token reuses
the earlier operator. -/
theorem c6_operator_persists (m : BooleanModel) (stem : Str → Str)
    (ans : List Document) (t : Str)
    (hA : t ≠ "AND".toList) (hO : t ≠ "OR".toList) :
    qbStep m stem (ans, Op.AND) t =
      some (intersect ans (lookupTerm m stem t), Op.AND) ∧
    qbStep m stem (ans, Op.OR) t =
      (union ans (lookupTerm m stem t)).map (fun r => (r, Op.OR)) ∧
    qbStep m stem (ans, Op.NONE) t =
      some (if ans.isEmpty then lookupTerm m stem t else ans, Op.NONE) := by
  have hA2 : ¬ t = ['A', 'N', 'D'] := hA
  have hO2 : ¬ t = ['O', 'R'] := hO
  refine ⟨?_, ?_, ?_⟩ <;> simp [qbStep, hA2, hO2]

/-- Witness for `c6_operator_persists` at the example index, the empty
running set and the term "cat". -/
theorem c6_operator_persists_witness :
    ("cat".toList ≠ "AND".toList ∧ "cat".toList ≠ "OR".toList) ∧
    (qbStep exampleModel id ([], Op.AND) ("cat".toList) =
        some (intersect [] (lookupTerm exampleModel id ("cat".toList)), Op.AND) ∧
      qbStep exampleModel id ([], Op.OR) ("cat".toList) =
        (union [] (lookupTerm exampleModel id ("cat".toList))).map
          (fun r => (r, Op.OR)) ∧
      qbStep exampleModel id ([], Op.NONE) ("cat".toList) =
        some (if ([] : List Document).isEmpty then
          lookupTerm exampleModel id ("cat".toList) else [], Op.NONE)) :=
  ⟨⟨by decide, by decide⟩,
    c6_operator_persists exampleModel id [] ("cat".toList) (by decide) (by decide)⟩

/-- Proof helper: `indexFrom` only appends to the catalog, and what it
appends is exactly `catalogOf`. -/
theorem indexFrom_documents (stem : Str → Str) :
    ∀ (files : List (Str × Option Str)) (i : Nat) (m : BooleanModel),
      (indexFrom stem i files m).documents = m.documents ++ catalogOf i files := by
  intro files
  induction files with
  | nil => intro i m; simp [indexFrom, catalogOf]
  | cons f rest ih =>
    intro i m
    obtain ⟨p, c⟩ := f
    cases c with
    | none => simp [indexFrom, catalogOf, ih]
    | some text => simp [indexFrom, catalogOf, ih, indexFile]

/-- Proof helper: every catalog entry produced from position `i` onward
has a document id strictly greater than `i`. -/
theorem catalogOf_key_lt :
    ∀ (files : List (Str × Option Str)) (i : Nat) (kv : Nat × DocumentDetails),
      kv ∈ catalogOf i files → i < kv.1 := by
  intro files
  induction files with
  | nil => intro i kv h; simp [catalogOf] at h
  | cons f rest ih =>
    intro i kv h
    obtain ⟨p, c⟩ := f
    cases c with
    | none =>
      have := ih (i + 1) kv (by simpa [catalogOf] using h)
      omega
    | some text =>
      simp only [catalogOf, List.mem_cons] at h
      rcases h with rfl | h
      · simp
      · have := ih (i + 1) kv h
        omega

/-- Proof helper: the catalog entry of the readable file at 0-based
position `kk` (counting from start offset `i`) is found under the id
`i + kk + 1` and holds the stripped file name, the `get(0..50)` summary
and the raw text. -/
theorem catalogOf_find :
    ∀ (files : List (Str × Option Str)) (i kk : Nat) (p : Str) (text : Str),
      files.get? kk = some (p, some text) →
      (catalogOf i files).find? (fun e => decide (e.1 = i + kk + 1)) =
        some (i + kk + 1,
          ⟨fileName p, (strGet (normalizeText text) 0 50).getD [], text⟩) := by
  intro files
  induction files with
  | nil => intro i kk p text h; simp at h
  | cons f rest ih =>
    intro i kk p text h
    obtain ⟨p', c⟩ := f
    cases kk with
    | zero =>
      simp only [List.get?_cons_zero, Option.some.injEq, Prod.mk.injEq] at h
      obtain ⟨rfl, rfl⟩ := h
      simp [catalogOf, List.find?_cons]
    | succ kk =>
      simp only [List.get?_cons_succ] at h
      cases c with
      | none =>
        have h2 := ih (i + 1) kk p text h
        have harith : i + 1 + kk + 1 = i + (kk + 1) + 1 := by omega
        rw [harith] at h2
        simpa [catalogOf] using h2
      | some t2 =>
        have h2 := ih (i + 1) kk p text h
        have harith : i + 1 + kk + 1 = i + (kk + 1) + 1 := by omega
        rw [harith] at h2
        have hk : ¬ (i + 1 = i + (kk + 1) + 1) := by omega
        simpa [catalogOf, List.find?_cons, hk] using h2

/-- Proof helper: `get_doc` after indexing finds exactly the catalog
entry of the readable file at position `i`. -/
theorem get_doc_indexFiles (stem : Str → Str)
    (files : List (Str × Option Str)) (i : Nat) (p : Str) (text : Str)
    (h : files.get? i = some (p, some text)) :
    get_doc (indexFiles stem files) (i + 1) =
      some ⟨fileName p, (strGet (normalizeText text) 0 50).getD [], text⟩ := by
  unfold get_doc indexFiles
  rw [indexFrom_documents]
  have h2 := catalogOf_find files 0 i p text h
  simp only [Nat.zero_add] at h2
  simp [h2]

/-- C5 (amended): a successfully read file's catalog entry stores the
file name without path and the raw contents as text, and as summary the
first 50 characters of the normalized text when it has at least 50
characters — and the empty string when it is shorter (Rust
`get(0..50)` is `None` on a shorter string and `unwrap_or_default`
yields the empty string). -/
theorem c5_catalog_entry (stem : Str → Str) (files : List (Str × Option Str))
    (i : Nat) (p : Str) (text : Str) (h : files.get? i = some (p, some text)) :
    get_doc (indexFiles stem files) (i + 1) =
      some ⟨fileName p,
        if 50 ≤ (normalizeText text).length then (normalizeText text).take 50
        else [],
        text⟩ := by
  rw [get_doc_indexFiles stem files i p text h]
  have hs : (strGet (normalizeText text) 0 50).getD [] =
      if 50 ≤ (normalizeText text).length then (normalizeText text).take 50
      else [] := by
    unfold strGet
    by_cases h50 : 50 ≤ (normalizeText text).length
    · simp [h50]
    · simp [h50]
  rw [hs]

/-- Witness for `c5_catalog_entry` on a one-file directory holding
"dir/a.txt" with contents "cat". -/
theorem c5_catalog_entry_witness :
    ([("dir/a.txt".toList, some ("cat".toList))].get? 0 =
      some ("dir/a.txt".toList, some ("cat".toList))) ∧
    get_doc (indexFiles id [("dir/a.txt".toList, some ("cat".toList))]) (0 + 1) =
      some ⟨fileName ("dir/a.txt".toList),
        if 50 ≤ (normalizeText ("cat".toList)).length then
          (normalizeText ("cat".toList)).take 50
        else [],
        "cat".toList⟩ :=
  ⟨by decide,
    c5_catalog_entry id [("dir/a.txt".toList, some ("cat".toList))] 0
      ("dir/a.txt".toList) ("cat".toList) (by decide)⟩

/-- Proof helper: a successful binary search returns an index below the
upper bound of the search interval. -/
theorem binarySearch_ok_lt (v : List Document) (t : Nat) :
    ∀ (fuel lo hi idx : Nat),
      binarySearchById v t fuel lo hi = Except.ok idx → idx < hi := by
  intro fuel
  induction fuel with
  | zero => intro lo hi idx h; simp [binarySearchById] at h
  | succ fuel ih =>
    intro lo hi idx h
    rw [binarySearchById] at h
    by_cases hlt : lo < hi
    · simp only [if_pos hlt] at h
      split at h
      · exact ih _ _ _ h
      · have := ih _ _ _ h
        omega
      · cases h
        omega
    · simp [hlt] at h

/-- Proof helper: an element of the list after a `set` is the written
element (at a valid index) or an element of the original list. -/
theorem mem_set_cases {l : List Document} {i : Nat} {x d : Document}
    (h : d ∈ l.set i x) : d ∈ l ∨ d = x :=
  List.mem_or_eq_of_mem_set h

/-- Proof helper: `getD` at a valid index is a member. -/
theorem getD_mem {l : List Document} {i : Nat} (h : i < l.length) :
    l.getD i default ∈ l := by
  rw [List.getD_eq_getElem?_getD, List.getElem?_eq_getElem h]
  exact List.getElem_mem h

/-- Proof helper: an entry of `assocUpdate` either carries the new value
or is an entry of the original association list. -/
theorem assocUpdate_mem {pl : List (Str × List Document)} {t : Str}
    {v : List Document} {e : Str × List Document}
    (h : e ∈ assocUpdate pl t v) : e.2 = v ∨ e ∈ pl := by
  unfold assocUpdate at h
  obtain ⟨e0, he0, rfl⟩ := List.mem_map.1 h
  by_cases h1 : e0.1 = t
  · simp [h1]
  · simp [h1, he0]

/-- Proof helper: every document id stored by `storeInsert` is an id
already present in the store or the id of the inserted document. -/
theorem storeInsert_ids {P : Nat → Prop} {pl : List (Str × List Document)}
    (hpl : ∀ e ∈ pl, ∀ d ∈ e.2, P d.id) {t : Str} {doc : Document}
    (hdoc : P doc.id) :
    ∀ e ∈ storeInsert pl t doc, ∀ d ∈ e.2, P d.id := by
  intro e he d hd
  unfold storeInsert at he
  split at he
  next v hf =>
    have hv : ∀ d2 ∈ v, P d2.id := by
      intro d2 hd2
      unfold assocFind at hf
      cases hfind : pl.find? (fun e => decide (e.1 = t)) with
      | none => rw [hfind] at hf; simp at hf
      | some e0 =>
        rw [hfind] at hf
        simp at hf
        subst hf
        exact hpl e0 (List.mem_of_find?_eq_some hfind) d2 hd2
    split at he
    next idx hb =>
      have hidx : idx < v.length := binarySearch_ok_lt v doc.id _ _ _ _ hb
      rcases assocUpdate_mem he with h1 | h1
      · rw [h1] at hd
        rcases mem_set_cases hd with h2 | h2
        · exact hv d h2
        · rw [h2]
          show P (v.getD idx default).id
          exact hv _ (getD_mem hidx)
      · exact hpl e h1 d hd
    next idx hb =>
      rcases assocUpdate_mem he with h1 | h1
      · rw [h1] at hd
        rcases List.mem_append.1 hd with h2 | h2
        · exact hv d h2
        · simp at h2
          rw [h2]
          exact hdoc
      · exact hpl e h1 d hd
  next hf =>
    rcases List.mem_append.1 he with h1 | h1
    · exact hpl e h1 d hd
    · simp at h1
      subst h1
      simp at hd
      subst hd
      exact hdoc

/-- Proof helper: all postings inserted for one document carry that
document's id. -/
theorem insertTokens_ids {P : Nat → Prop} (stem : Str → Str) (doc_id : Nat)
    (hid : P doc_id) :
    ∀ (toks : List Str) (j : Nat) (pl : List (Str × List Document)),
      (∀ e ∈ pl, ∀ d ∈ e.2, P d.id) →
      ∀ e ∈ insertTokens stem doc_id toks j pl, ∀ d ∈ e.2, P d.id := by
  intro toks
  induction toks with
  | nil => intro j pl hpl; simpa [insertTokens] using hpl
  | cons tok rest ih =>
    intro j pl hpl
    rw [insertTokens]
    exact ih (j + 1) _ (storeInsert_ids hpl hid)

/-- Proof helper: every document id in the posting store after indexing
comes from the initial store or from a readable listed file's id slot. -/
theorem indexFrom_posting_ids {P : Nat → Prop} (stem : Str → Str) :
    ∀ (files : List (Str × Option Str)) (i : Nat) (m : BooleanModel),
      (∀ e ∈ m.posting_list, ∀ d ∈ e.2, P d.id) →
      (∀ kk p text, files.get? kk = some (p, some text) → P (i + kk + 1)) →
      ∀ e ∈ (indexFrom stem i files m).posting_list, ∀ d ∈ e.2, P d.id := by
  intro files
  induction files with
  | nil => intro i m hm hf; simpa [indexFrom] using hm
  | cons f rest ih =>
    intro i m hm hf
    obtain ⟨p, c⟩ := f
    cases c with
    | none =>
      rw [indexFrom]
      refine ih (i + 1) m hm ?_
      intro kk p2 t2 hget
      have := hf (kk + 1) p2 t2 (by simpa using hget)
      have harith : i + (kk + 1) + 1 = i + 1 + kk + 1 := by omega
      rwa [harith] at this
    | some text =>
      rw [indexFrom]
      refine ih (i + 1) _ ?_ ?_
      · intro e he d hd
        have hstep : ∀ e2 ∈ (indexFile stem (i + 1) p text m).posting_list,
            ∀ d2 ∈ e2.2, P d2.id := by
          unfold indexFile
          exact insertTokens_ids stem (i + 1)
            (by simpa using hf 0 p text rfl) _ 0 m.posting_list hm
        exact hstep e he d hd
      · intro kk p2 t2 hget
        have := hf (kk + 1) p2 t2 (by simpa using hget)
        have harith : i + (kk + 1) + 1 = i + 1 + kk + 1 := by omega
        rwa [harith] at this

/-- Proof helper: an unreadable file's id slot never shows up as a
catalog key. -/
theorem catalogOf_none_not_mem :
    ∀ (files : List (Str × Option Str)) (i j : Nat) (p : Str),
      files.get? j = some (p, none) →
      (i + j + 1) ∉ (catalogOf i files).map Prod.fst := by
  intro files
  induction files with
  | nil => intro i j p h; simp at h
  | cons f rest ih =>
    intro i j p h
    obtain ⟨p', c⟩ := f
    cases j with
    | zero =>
      simp only [List.get?_cons_zero, Option.some.injEq, Prod.mk.injEq] at h
      obtain ⟨rfl, rfl⟩ := h
      intro hmem
      simp only [catalogOf] at hmem
      obtain ⟨kv, hkv, hfst⟩ := List.mem_map.1 hmem
      have := catalogOf_key_lt rest (i + 1) kv hkv
      omega
    | succ j =>
      simp only [List.get?_cons_succ] at h
      cases c with
      | none =>
        intro hmem
        simp only [catalogOf] at hmem
        have h2 := ih (i + 1) j p h
        have harith : i + 1 + j + 1 = i + (j + 1) + 1 := by omega
        rw [harith] at h2
        exact h2 hmem
      | some t2 =>
        intro hmem
        simp only [catalogOf, List.map_cons, List.mem_cons] at hmem
        rcases hmem with h1 | h1
        · omega
        · have h2 := ih (i + 1) j p h
          have harith : i + 1 + j + 1 = i + (j + 1) + 1 := by omega
          rw [harith] at h2
          exact h2 h1

/-- C8: the listed file at 0-based position `j` receives document id
`j + 1`.  If it was read it appears in the catalog under that id; if its
read failed it contributes no catalog entry and no posting with that id,
yet the slot is still consumed: every other listed file's id is fixed by
its own list position alone, so the id sequence over the listed files
has no gaps. -/
theorem c8_id_slots (stem : Str → Str) (files : List (Str × Option Str))
    (j : Nat) (p : Str) (c : Option Str) (h : files.get? j = some (p, c)) :
    (∀ text, c = some text →
      (j + 1) ∈ (indexFiles stem files).documents.map Prod.fst) ∧
    (c = none →
      (j + 1) ∉ (indexFiles stem files).documents.map Prod.fst ∧
      ∀ e ∈ (indexFiles stem files).posting_list, ∀ d ∈ e.2, d.id ≠ j + 1) := by
  constructor
  · intro text hc
    subst hc
    have hfind := catalogOf_find files 0 j p text h
    simp only [Nat.zero_add] at hfind
    have hmem := List.mem_of_find?_eq_some hfind
    unfold indexFiles
    rw [indexFrom_documents]
    simp only [List.nil_append]
    exact List.mem_map.2 ⟨_, hmem, rfl⟩
  · intro hc
    subst hc
    constructor
    · unfold indexFiles
      rw [indexFrom_documents]
      simp only [List.nil_append]
      have h2 := catalogOf_none_not_mem files 0 j p h
      simpa using h2
    · intro e he d hd
      unfold indexFiles at he
      refine indexFrom_posting_ids (P := fun n => n ≠ j + 1) stem files 0 ⟨[], []⟩ ?_ ?_ e he d hd
      · intro e2 he2
        simp at he2
      · intro kk p2 t2 hget heq
        have hkj : kk = j := by omega
        subst hkj
        rw [h] at hget
        simp at hget

/-- Witness for `c8_id_slots` on a three-file directory whose middle
file fails to read: id 2 is absent from the catalog while id 3 (the
following readable file) is present. -/
theorem c8_id_slots_witness :
    2 ∉ (indexFiles id
        [("aa".toList, some ("cat".toList)), ("bb".toList, none),
          ("cc".toList, some ("cat".toList))]).documents.map Prod.fst ∧
    3 ∈ (indexFiles id
        [("aa".toList, some ("cat".toList)), ("bb".toList, none),
          ("cc".toList, some ("cat".toList))]).documents.map Prod.fst :=
  ⟨((c8_id_slots id
      [("aa".toList, some ("cat".toList)), ("bb".toList, none),
        ("cc".toList, some ("cat".toList))] 1 ("bb".toList) none
      (by decide)).2 rfl).1,
    (c8_id_slots id
      [("aa".toList, some ("cat".toList)), ("bb".toList, none),
        ("cc".toList, some ("cat".toList))] 2 ("cc".toList)
      (some ("cat".toList)) (by decide)).1 ("cat".toList) rfl⟩

/-- Proof helper: the first loop of `query_positional` appends the
posting list of every non-`/` token to the accumulator and folds the
window variable over the `/` tokens. -/
theorem qpScan_eq (m : BooleanModel) (stem : Str → Str) :
    ∀ (toks : List Str) (dl : List (List Document)) (k : Nat),
      qpScan m stem toks dl k =
        (dl ++ (toks.filter (fun t => !startsSlash t)).map (lookupTerm m stem),
          windowAfter k toks) := by
  intro toks
  induction toks with
  | nil => intro dl k; simp [qpScan, windowAfter]
  | cons t rest ih =>
    intro dl k
    by_cases h : startsSlash t
    · rw [qpScan, if_pos h, ih]
      rw [windowAfter]
      simp [h]
    · rw [qpScan, if_neg h, ih]
      rw [windowAfter]
      simp [h]

/-- Proof helper: the window variable after the scan is the parsed value
of the last `/` token, or the starting value when there is none. -/
theorem windowAfter_spec :
    ∀ (toks : List Str) (k : Nat),
      windowAfter k toks =
        ((toks.filter startsSlash).getLast?).elim k
          (fun t => (parseU32 t.tail).getD 1) := by
  intro toks
  induction toks with
  | nil => intro k; simp [windowAfter]
  | cons t rest ih =>
    intro k
    by_cases h : startsSlash t
    · rw [windowAfter]
      simp only [h, if_true]
      rw [ih]
      rw [List.filter_cons_of_pos h]
      cases hf : rest.filter startsSlash with
      | nil => simp [hf]
      | cons a l =>
        cases hg : (a :: l).getLast? with
        | none => simp at hg
        | some x => simp [hg]
    · rw [windowAfter]
      simp only [h, if_false]
      rw [ih, List.filter_cons_of_neg (by simpa using h)]
      simp

/-- Proof helper: from index 1 on, the enumerated fold of
`query_positional` is a plain left fold with `positional_intersect`. -/
theorem qpFold_pos (k : Nat) :
    ∀ (dl : List (List Document)) (i : Nat) (ans : List Document),
      qpFold k dl (i + 1) ans =
        dl.foldl (fun a c => positional_intersect a c k) ans := by
  intro dl
  induction dl with
  | nil => intro i ans; simp [qpFold]
  | cons cur rest ih =>
    intro i ans
    rw [qpFold]
    simp only [Nat.succ_ne_zero, if_false, List.foldl_cons]
    exact ih (i + 1) _

/-- C10: every `/`-prefixed token of the query is parsed before any
intersection is performed, so the last such token determines the single
window applied to all positional intersections — including those between
terms that appear before the `/` token: `query_positional` coincides
with the claim-side evaluation `claimEval`, whose window `claimWindow`
is read off the last `/` token of the whole token list (default 1). -/
theorem c10_window_parsed_first (m : BooleanModel) (stem : Str → Str)
    (q : Str) :
    query_positional m stem q = claimEval m stem (tokenize q) := by
  unfold query_positional claimEval
  rw [qpScan_eq]
  simp only [List.nil_append]
  rw [windowAfter_spec]
  cases hd : (List.filter (fun t => !startsSlash t) (tokenize q)).map
      (lookupTerm m stem) with
  | nil => simp [qpFold, claimWindow]
  | cons h rest =>
    rw [qpFold]
    simp only [if_pos rfl]
    rw [show (0 : Nat) + 1 = 0 + 1 from rfl, qpFold_pos]
    rfl

/-- Proof helper: splitting a space-free prefix followed by a space
peels off exactly that prefix. -/
theorem splitSp_append_space {x : Str} (hx : ' ' ∉ x) (rest : Str) :
    splitSp (x ++ ' ' :: rest) = x :: splitSp rest := by
  induction x with
  | nil => simp [splitSp]
  | cons c cs ih =>
    have hc : ¬ c = ' ' := fun h => hx (by simp [h])
    have hcs : ' ' ∉ cs := fun h => hx (List.mem_cons_of_mem _ h)
    rw [List.cons_append, splitSp, if_neg hc, ih hcs]

/-- Proof helper: a space-free string is a single split piece. -/
theorem splitSp_no_space {x : Str} (hx : ' ' ∉ x) : splitSp x = [x] := by
  induction x with
  | nil => rfl
  | cons c cs ih =>
    have hc : ¬ c = ' ' := fun h => hx (by simp [h])
    have hcs : ' ' ∉ cs := fun h => hx (List.mem_cons_of_mem _ h)
    rw [splitSp, if_neg hc, ih hcs]

/-- Proof helper: tokenizing `"<term> <op> <term>"` yields exactly the
three tokens, provided each piece is space-free and longer than one
character. -/
theorem tokenize_three (x op y : Str) (hx : ' ' ∉ x) (hop : ' ' ∉ op)
    (hy : ' ' ∉ y) (hx1 : 1 < x.length) (hop1 : 1 < op.length)
    (hy1 : 1 < y.length) :
    tokenize (x ++ ' ' :: (op ++ ' ' :: y)) = [x, op, y] := by
  unfold tokenize
  rw [splitSp_append_space hx, splitSp_append_space hop, splitSp_no_space hy]
  simp [hx1, hop1, hy1]

/-- C7: two-term queries.  For any index state, any stemmer, and any two
space-free terms longer than one character that are not the operator
tokens themselves, `query_boolean("X AND Y")` is exactly
`intersect(lookup(X), lookup(Y))` and `query_boolean("X OR Y")` is
exactly `union(lookup(X), lookup(Y))`, where `lookupTerm` lowercases and
stems the term before consulting the posting store (the equality for OR
also propagates the panic `union` may raise, on both sides alike). -/
theorem c7_two_term_queries (m : BooleanModel) (stem : Str → Str) (x y : Str)
    (hx : ' ' ∉ x) (hy : ' ' ∉ y) (hx1 : 1 < x.length) (hy1 : 1 < y.length)
    (hxA : x ≠ "AND".toList) (hxO : x ≠ "OR".toList)
    (hyA : y ≠ "AND".toList) (hyO : y ≠ "OR".toList) :
    query_boolean m stem (x ++ " AND ".toList ++ y) =
      some (intersect (lookupTerm m stem x) (lookupTerm m stem y)) ∧
    query_boolean m stem (x ++ " OR ".toList ++ y) =
      union (lookupTerm m stem x) (lookupTerm m stem y) := by
  have hxA2 : ¬ x = ['A', 'N', 'D'] := hxA
  have hxO2 : ¬ x = ['O', 'R'] := hxO
  have hyA2 : ¬ y = ['A', 'N', 'D'] := hyA
  have hyO2 : ¬ y = ['O', 'R'] := hyO
  have hAnd : ' ' ∉ ("AND".toList : Str) := by decide
  have hOr : ' ' ∉ ("OR".toList : Str) := by decide
  have hAnd1 : 1 < ("AND".toList : Str).length := by decide
  have hOr1 : 1 < ("OR".toList : Str).length := by decide
  constructor
  · have hq : x ++ " AND ".toList ++ y = x ++ ' ' :: ("AND".toList ++ ' ' :: y) := by
      simp
    unfold query_boolean
    rw [hq, tokenize_three x ("AND".toList) y hx hAnd hy hx1 hAnd1 hy1]
    simp only [List.foldlM_cons, List.foldlM_nil]
    simp [qbStep, hxA2, hxO2, hyA2, hyO2]
  · have hq : x ++ " OR ".toList ++ y = x ++ ' ' :: ("OR".toList ++ ' ' :: y) := by
      simp
    unfold query_boolean
    rw [hq, tokenize_three x ("OR".toList) y hx hOr hy hx1 hOr1 hy1]
    simp only [List.foldlM_cons, List.foldlM_nil]
    simp [qbStep, hxA2, hxO2, hyA2, hyO2]
    cases union (lookupTerm m stem x) (lookupTerm m stem y) <;> simp

/-- Witness for `c7_two_term_queries` on the example index with the
terms "cat" and "dog". -/
theorem c7_two_term_queries_witness :
    (' ' ∉ ("cat".toList : Str) ∧ ' ' ∉ ("dog".toList : Str) ∧
      1 < ("cat".toList : Str).length ∧ 1 < ("dog".toList : Str).length ∧
      "cat".toList ≠ "AND".toList ∧ "cat".toList ≠ "OR".toList ∧
      "dog".toList ≠ "AND".toList ∧ "dog".toList ≠ "OR".toList) ∧
    (query_boolean exampleModel id ("cat".toList ++ " AND ".toList ++ "dog".toList) =
        some (intersect (lookupTerm exampleModel id ("cat".toList))
          (lookupTerm exampleModel id ("dog".toList))) ∧
      query_boolean exampleModel id ("cat".toList ++ " OR ".toList ++ "dog".toList) =
        union (lookupTerm exampleModel id ("cat".toList))
          (lookupTerm exampleModel id ("dog".toList))) :=
  ⟨⟨by decide, by decide, by decide, by decide, by decide, by decide,
      by decide, by decide⟩,
    c7_two_term_queries exampleModel id ("cat".toList) ("dog".toList)
      (by decide) (by decide) (by decide) (by decide) (by decide) (by decide)
      (by decide) (by decide)⟩

/-- Proof helper: characters with equal codes are equal. -/
theorem char_toNat_inj {a b : Char} (h : a.toNat = b.toNat) : a = b := by
  have h2 := congrArg Char.ofNat h
  simpa using h2

/-- Proof helper: `lexCmp` answers `eq` exactly on equal strings. -/
theorem lexCmp_eq_iff : ∀ (a b : Str), lexCmp a b = Ordering.eq ↔ a = b := by
  intro a
  induction a with
  | nil =>
    intro b
    cases b with
    | nil => simp [lexCmp]
    | cons y bs => simp [lexCmp]
  | cons x as_ ih =>
    intro b
    cases b with
    | nil => simp [lexCmp]
    | cons y bs =>
      rw [lexCmp]
      rcases hxy : charCmp x y with hlt | heq | hgt
      · simp only [hxy]
        unfold charCmp at hxy
        constructor
        · intro h; cases h
        · rintro ⟨rfl, rfl⟩
          simp [Nat.compare_eq_eq.2 rfl] at hxy
      · simp only [hxy]
        unfold charCmp at hxy
        have hx : x = y := char_toNat_inj (Nat.compare_eq_eq.1 hxy)
        subst hx
        simp [ih bs]
      · simp only [hxy]
        unfold charCmp at hxy
        constructor
        · intro h; cases h
        · rintro ⟨rfl, rfl⟩
          simp [Nat.compare_eq_eq.2 rfl] at hxy

/-- Proof helper: `gt` in one direction is `lt` in the other. -/
theorem lexCmp_gt_iff : ∀ (a b : Str),
    lexCmp a b = Ordering.gt ↔ lexCmp b a = Ordering.lt := by
  intro a
  induction a with
  | nil =>
    intro b
    cases b with
    | nil => simp [lexCmp]
    | cons y bs => simp [lexCmp]
  | cons x as_ ih =>
    intro b
    cases b with
    | nil => simp [lexCmp]
    | cons y bs =>
      rw [lexCmp, lexCmp]
      rcases hxy : compare x.toNat y.toNat with hlt | heq | hgt
      · have h1 : charCmp x y = Ordering.lt := hxy
        have h2 : charCmp y x = Ordering.gt :=
          Nat.compare_eq_gt.2 (Nat.compare_eq_lt.1 hxy)
        simp [h1, h2]
      · have h1 : charCmp x y = Ordering.eq := hxy
        have h2 : charCmp y x = Ordering.eq :=
          Nat.compare_eq_eq.2 (Nat.compare_eq_eq.1 hxy).symm
        simpa [h1, h2] using ih bs
      · have h1 : charCmp x y = Ordering.gt := hxy
        have h2 : charCmp y x = Ordering.lt :=
          Nat.compare_eq_lt.2 (Nat.compare_eq_gt.1 hxy)
        simp [h1, h2]

/-- Proof helper: strict lexicographic order is transitive. -/
theorem lexCmp_lt_trans : ∀ (a b c : Str),
    lexCmp a b = Ordering.lt → lexCmp b c = Ordering.lt →
    lexCmp a c = Ordering.lt := by
  intro a
  induction a with
  | nil =>
    intro b c h1 h2
    cases c with
    | nil =>
      cases b with
      | nil => simp [lexCmp] at h1
      | cons y bs => simp [lexCmp] at h2
    | cons z cs => simp [lexCmp]
  | cons x as_ ih =>
    intro b c h1 h2
    cases b with
    | nil => simp [lexCmp] at h1
    | cons y bs =>
      cases c with
      | nil => simp [lexCmp] at h2
      | cons z cs =>
        rw [lexCmp] at h1 h2 ⊢
        rcases hxy : compare x.toNat y.toNat with h | h | h <;>
          rw [show charCmp x y = _ from hxy] at h1 <;>
          rcases hyz : compare y.toNat z.toNat with h' | h' | h' <;>
            rw [show charCmp y z = _ from hyz] at h2
        · have : x.toNat < z.toNat :=
            Nat.lt_trans (Nat.compare_eq_lt.1 hxy) (Nat.compare_eq_lt.1 hyz)
          simp [charCmp, Nat.compare_eq_lt.2 this]
        · have hy : y.toNat = z.toNat := Nat.compare_eq_eq.1 hyz
          have : x.toNat < z.toNat := hy ▸ Nat.compare_eq_lt.1 hxy
          simp [charCmp, Nat.compare_eq_lt.2 this]
        · simp at h2
        · have hx : x.toNat = y.toNat := Nat.compare_eq_eq.1 hxy
          have : x.toNat < z.toNat := hx ▸ Nat.compare_eq_lt.1 hyz
          simp [charCmp, Nat.compare_eq_lt.2 this]
        · have hx : x.toNat = y.toNat := Nat.compare_eq_eq.1 hxy
          have hy : y.toNat = z.toNat := Nat.compare_eq_eq.1 hyz
          have : compare x.toNat z.toNat = Ordering.eq :=
            Nat.compare_eq_eq.2 (hx.trans hy)
          simp only [charCmp, this]
          exact ih bs cs h1 h2
        · simp at h2
        · simp at h1
        · simp at h1
        · simp at h1

/-- Proof helper: `lexCmp` not-greater means strictly less or equal. -/
theorem lexCmp_ne_gt_iff (a b : Str) :
    lexCmp a b ≠ Ordering.gt ↔ (lexCmp a b = Ordering.lt ∨ a = b) := by
  constructor
  · intro hne
    rcases h : lexCmp a b with _ | _ | _
    · exact Or.inl rfl
    · exact Or.inr ((lexCmp_eq_iff a b).1 h)
    · exact absurd h hne
  · rintro (h | rfl)
    · rw [h]; intro hc; cases hc
    · rw [(lexCmp_eq_iff a a).2 rfl]; intro hc; cases hc

/-- Proof helper: a common prefix cancels in lexicographic comparison. -/
theorem lexCmp_append : ∀ (p a b : Str), lexCmp (p ++ a) (p ++ b) = lexCmp a b := by
  intro p
  induction p with
  | nil => intro a b; simp
  | cons c cs ih =>
    intro a b
    rw [List.cons_append, List.cons_append, lexCmp]
    have hc : charCmp c c = Ordering.eq := Nat.compare_eq_eq.2 rfl
    simp only [hc]
    exact ih a b

/-- Proof helper: a common prefix cancels in the `list_dir_sorted`
comparator: paths inside one directory compare exactly as their file
names do. -/
theorem pathCmp_append (p a b : Str) : pathCmp (p ++ a) (p ++ b) = pathCmp a b := by
  unfold pathCmp
  rw [List.length_append, List.length_append, lexCmp_append]
  rcases Nat.lt_trichotomy a.length b.length with h | h | h
  · rw [Nat.compare_eq_lt.2 h, Nat.compare_eq_lt.2 (by omega)]
  · rw [h, Nat.compare_eq_eq.2 rfl, Nat.compare_eq_eq.2 rfl]
  · rw [Nat.compare_eq_gt.2 h, Nat.compare_eq_gt.2 (by omega)]

/-- Proof helper: the comparator's not-greater relation is exactly the
claimed name order. -/
theorem pathCmp_ne_gt_iff (a b : Str) :
    pathCmp a b ≠ Ordering.gt ↔ claimNameLe a b := by
  unfold pathCmp claimNameLe
  rcases Nat.lt_trichotomy a.length b.length with h | h | h
  · rw [Nat.compare_eq_lt.2 h]
    constructor
    · intro _; exact Or.inl h
    · intro _ hc; cases hc
  · rw [Nat.compare_eq_eq.2 h]
    constructor
    · intro h2; exact Or.inr ⟨h, h2⟩
    · rintro (h2 | ⟨h2, h3⟩)
      · omega
      · exact h3
  · rw [Nat.compare_eq_gt.2 h]
    constructor
    · intro h2; exact absurd rfl h2
    · rintro (h2 | ⟨h2, h3⟩) <;> omega

/-- Proof helper: the comparator's not-greater relation is transitive. -/
theorem pathLe_trans {a b c : Str}
    (h1 : pathCmp a b ≠ Ordering.gt) (h2 : pathCmp b c ≠ Ordering.gt) :
    pathCmp a c ≠ Ordering.gt := by
  rw [pathCmp_ne_gt_iff] at h1 h2 ⊢
  rcases h1 with h1 | ⟨h1, h1b⟩ <;> rcases h2 with h2 | ⟨h2, h2b⟩
  · exact Or.inl (by omega)
  · exact Or.inl (by omega)
  · exact Or.inl (by omega)
  · refine Or.inr ⟨by omega, ?_⟩
    rw [lexCmp_ne_gt_iff] at h1b h2b ⊢
    rcases h1b with h1b | rfl <;> rcases h2b with h2b | rfl
    · exact Or.inl (lexCmp_lt_trans a b c h1b h2b)
    · exact Or.inl h1b
    · exact Or.inl h2b
    · exact Or.inr rfl

/-- Proof helper: the comparator's not-greater relation is total. -/
theorem pathLe_total (a b : Str) :
    pathCmp a b ≠ Ordering.gt ∨ pathCmp b a ≠ Ordering.gt := by
  by_cases h : pathCmp a b = Ordering.gt
  · right
    unfold pathCmp at h ⊢
    rcases Nat.lt_trichotomy a.length b.length with hl | hl | hl
    · rw [Nat.compare_eq_lt.2 hl] at h; cases h
    · rw [hl, Nat.compare_eq_eq.2 rfl] at h
      rw [← hl, Nat.compare_eq_eq.2 rfl]
      rw [(lexCmp_gt_iff a b).1 h]
      intro hc; cases hc
    · rw [Nat.compare_eq_lt.2 hl]
      intro hc; cases hc
  · exact Or.inl h

/-- C9: `index()` assigns document ids `1..N` to the listed entries in
the order produced by `list_dir_sorted`, and for entries of one
directory (a common path prefix followed by the file name) that order is
exactly name length ascending, then lexicographic name ascending: the
sorted listing is the claimed ordering of the names mapped back to
paths, and the file at sorted position `i` receives id `i + 1`. -/
theorem c9_listing_order :
    (∀ (p : Str) (names : List Str),
      ∃ names2 : List Str,
        list_dir_sorted (names.map (fun n => p ++ n)) =
          names2.map (fun n => p ++ n) ∧
        names2.Perm names ∧ names2.Pairwise claimNameLe) ∧
    (∀ (stem : Str → Str) (files : List (Str × Option Str)) (i : Nat)
        (pth text : Str),
      files.get? i = some (pth, some text) →
      (i + 1) ∈ (indexFiles stem files).documents.map Prod.fst) := by
  constructor
  · intro p names
    refine ⟨names.mergeSort (fun a b => decide (pathCmp a b ≠ Ordering.gt)),
      ?_, ?_, ?_⟩
    · unfold list_dir_sorted
      have hl : ∀ a ∈ names, ∀ b ∈ names,
          (fun a b => decide (pathCmp a b ≠ Ordering.gt)) a b =
            (fun a b => decide (pathCmp a b ≠ Ordering.gt)) (p ++ a) (p ++ b) := by
        intro a _ b _
        simp only [pathCmp_append]
      exact (List.map_mergeSort hl).symm
    · exact List.mergeSort_perm names _
    · have htrans : ∀ (a b c : Str),
          decide (pathCmp a b ≠ Ordering.gt) = true →
          decide (pathCmp b c ≠ Ordering.gt) = true →
          decide (pathCmp a c ≠ Ordering.gt) = true := by
        intro a b c h1 h2
        rw [decide_eq_true_eq] at h1 h2 ⊢
        exact pathLe_trans h1 h2
      have htotal : ∀ (a b : Str),
          (decide (pathCmp a b ≠ Ordering.gt) ||
            decide (pathCmp b a ≠ Ordering.gt)) = true := by
        intro a b
        rcases pathLe_total a b with h | h <;> simp [h]
      have hs := List.sorted_mergeSort htrans htotal names
      refine hs.imp ?_
      intro a b hab
      exact (pathCmp_ne_gt_iff a b).1 (by simpa using hab)
  · intro stem files i pth text h
    have hfind := catalogOf_find files 0 i pth text h
    simp only [Nat.zero_add] at hfind
    have hmem := List.mem_of_find?_eq_some hfind
    unfold indexFiles
    rw [indexFrom_documents]
    simp only [List.nil_append]
    exact List.mem_map.2 ⟨_, hmem, rfl⟩

/-- Witness for `c9_listing_order` on a two-file directory: the file
listed second in the sorted order receives document id 2. -/
theorem c9_listing_order_witness :
    2 ∈ (indexFiles id [("z".toList, some ("cat".toList)),
        ("aa".toList, some ("dog".toList))]).documents.map Prod.fst :=
  c9_listing_order.2 id
    [("z".toList, some ("cat".toList)), ("aa".toList, some ("dog".toList))]
    1 ("aa".toList) ("dog".toList) (by decide)
